import Mathlib

/-!
Verification development for the brain-ai cognitive retrieval engine
(C++ sources under brain-ai/src and brain-ai/include).

Modelling conventions:
* `float` scores and weights are modelled as exact rationals (`ℚ`); the
  tolerances of the spec (within 1e-6) become exact equalities in the model.
* `std::unordered_map` / `std::unordered_set` are modelled as association
  lists / lists with insert-or-assign semantics.  The C++ iteration order
  is unspecified; the modelled order is insertion order.  All proved
  properties are either independent of the iteration order or (for the
  concrete boundary scenarios) have pairwise-distinct sort keys, so the
  sorted output is the same for every iteration order.
* fallible C++ code (functions that throw) is modelled with `Except` or
  with explicit result inductives.
-/

namespace BrainAI

/-! ### Generic association-list helpers (model of `std::unordered_map`) -/

/-- Lookup in an association list keyed by strings. -/
def lookupA {α : Type} : List (String × α) → String → Option α
  | [], _ => none
  | p :: rest, k => if p.1 = k then some p.2 else lookupA rest k

/-- Lookup in an association list keyed by naturals. -/
def lookupN {α : Type} : List (Nat × α) → Nat → Option α
  | [], _ => none
  | p :: rest, k => if p.1 = k then some p.2 else lookupN rest k

/-- Insert-or-assign (`map[k] = v`): overwrites in place, appends if absent. -/
def insertA {α : Type} : List (String × α) → String → α → List (String × α)
  | [], k, v => [(k, v)]
  | p :: rest, k, v => if p.1 = k then (k, v) :: rest else p :: insertA rest k v

/-- Erase a string key from an association list (`map.erase(k)`). -/
def eraseA {α : Type} : List (String × α) → String → List (String × α)
  | [], _ => []
  | p :: rest, k => if p.1 = k then rest else p :: eraseA rest k

/-- Erase a natural key from an association list. -/
def eraseN {α : Type} : List (Nat × α) → Nat → List (Nat × α)
  | [], _ => []
  | p :: rest, k => if p.1 = k then rest else p :: eraseN rest k

/-! ### String helpers (models of `utils.hpp` string functions) -/

/-- Model of `to_lowercase`: lowercase every character. -/
def toLowerS (s : String) : String := String.mk (s.data.map Char.toLower)

/-- Is `pat` a prefix of `hay` (character lists)? -/
def prefB : List Char → List Char → Bool
  | [], _ => true
  | _ :: _, [] => false
  | a :: ps, b :: hs => a = b && prefB ps hs

/-- Model of `std::string::find(pat) != npos`: does `hay` contain `pat`
as a contiguous substring? -/
def containsSub (hay pat : List Char) : Bool :=
  match hay with
  | [] => prefB pat []
  | _ :: rest => prefB pat hay || containsSub rest pat

/-- Substring test on strings: `haystack.find(needle) != npos`. -/
def substrB (hay pat : String) : Bool := containsSub hay.data pat.data

/-- Model of `tokenize(text, ' ')`: split on spaces, dropping empty tokens. -/
def tokenizeAux (cs : List Char) (cur : List Char) : List String :=
  match cs with
  | [] => if cur = [] then [] else [String.mk cur.reverse]
  | c :: rest =>
    if c = ' ' then
      if cur = [] then tokenizeAux rest [] else String.mk cur.reverse :: tokenizeAux rest []
    else tokenizeAux rest (c :: cur)

/-- Model of `tokenize` from `utils.hpp` with the default space delimiter. -/
def tokenizeS (s : String) : List String := tokenizeAux s.data []

/-! ### Hybrid fusion (`hybrid_fusion.hpp` / `hybrid_fusion.cpp`) -/

/-- Model of `ScoredResult`.  The C++ `metadata` map is only ever given the
three keys `vector_score`, `episodic_score`, `semantic_score` by `fuse`, so
it is flattened into three rational fields (0 meaning "not set"). -/
structure ScoredResult where
  content : String
  score : ℚ
  source : String
  vector_score : ℚ
  episodic_score : ℚ
  semantic_score : ℚ
deriving DecidableEq, Repr

/-- Build an input `ScoredResult` as the two-argument C++ constructor does
(metadata scores default to zero). -/
def mkScored (c : String) (s : ℚ) (src : String) : ScoredResult :=
  ⟨c, s, src, 0, 0, 0⟩

/-- Model of `FusionWeights` (fields `vector_weight`, `episodic_weight`,
`semantic_weight`). -/
structure FusionWeights where
  vector_weight : ℚ
  episodic_weight : ℚ
  semantic_weight : ℚ
deriving DecidableEq, Repr

/-- Sum of the three fusion weights. -/
def wsum (w : FusionWeights) : ℚ :=
  w.vector_weight + w.episodic_weight + w.semantic_weight

/-- Model of `FusionWeights::normalize`: divide by the sum when the sum is
positive, otherwise leave the weights unchanged. -/
def FusionWeights.normalize (w : FusionWeights) : FusionWeights :=
  if 0 < wsum w then
    ⟨w.vector_weight / wsum w, w.episodic_weight / wsum w, w.semantic_weight / wsum w⟩
  else w

/-- Model of `HybridFusion::set_weights` (also of the constructor): store the
given weights and normalize them.  The `HybridFusion` state is exactly its
stored `FusionWeights`. -/
def set_weights (w : FusionWeights) : FusionWeights := w.normalize

/-- Model of `HybridFusion::compute_fused_score`. -/
def compute_fused_score (w : FusionWeights) (v e s : ℚ) : ℚ :=
  w.vector_weight * v + w.episodic_weight * e + w.semantic_weight * s

/-- The inner map `source → score` of the `score_map` of `fuse`; the three
possible keys are flattened into three optional fields. -/
structure SourceScores where
  vector : Option ℚ
  episodic : Option ℚ
  semantic : Option ℚ
deriving DecidableEq, Repr

/-- `score_map[content][...] = score`: update the entry for `content`
(default-constructing an empty inner map first, as `operator[]` does). -/
def upsertScore (m : List (String × SourceScores)) (c : String)
    (f : SourceScores → SourceScores) : List (String × SourceScores) :=
  match m with
  | [] => [(c, f ⟨none, none, none⟩)]
  | p :: rest => if p.1 = c then (c, f p.2) :: rest else p :: upsertScore rest c f

/-- The map-building phase of `HybridFusion::fuse`: vector scores, then
episodic scores, then semantic scores. -/
def buildScoreMap (vr er sr : List ScoredResult) : List (String × SourceScores) :=
  let m1 := vr.foldl (fun m r => upsertScore m r.content (fun ss => { ss with vector := some r.score })) []
  let m2 := er.foldl (fun m r => upsertScore m r.content (fun ss => { ss with episodic := some r.score })) m1
  sr.foldl (fun m r => upsertScore m r.content (fun ss => { ss with semantic := some r.score })) m2

/-- The descending-score ordering used by the `std::sort` comparator in `fuse`. -/
def fusedGe (a b : ScoredResult) : Prop := b.score ≤ a.score

instance : DecidableRel fusedGe := fun a b => inferInstanceAs (Decidable (b.score ≤ a.score))

instance : IsTotal ScoredResult fusedGe := ⟨fun a b => le_total b.score a.score⟩

instance : IsTrans ScoredResult fusedGe := ⟨fun _ _ _ h1 h2 => le_trans h2 h1⟩

/-- Model of `HybridFusion::fuse`: build the content-keyed score map, emit a
fused `ScoredResult` per distinct content (missing sources contributing
zero), sort descending by fused score, truncate to `top_k`. -/
def fuse (w : FusionWeights) (vr er sr : List ScoredResult) (top_k : Nat) :
    List ScoredResult :=
  let m := buildScoreMap vr er sr
  let fused := m.map (fun p =>
    let v := p.2.vector.getD 0
    let e := p.2.episodic.getD 0
    let s := p.2.semantic.getD 0
    ScoredResult.mk p.1 (compute_fused_score w v e s) "fused" v e s)
  (List.insertionSort fusedGe fused).take top_k

/-! ### Semantic network (`semantic_network.hpp` / `semantic_network.cpp`)

`spread_activation` is a BFS whose C++ `while` loop is modelled with a fuel
parameter.  Every queue pop consumes one fuel unit; the C++ loop pops each
pushed tuple exactly once, pushes at most once per source concept at
initialization, and pushes in the loop only for neighbors not yet in the
visited set (marking them visited), so the total number of pops is at most
`sources.length + totalEdges net`.  The chosen fuel strictly exceeds that
bound, hence the fuelled loop computes exactly the result of the C++ loop. -/

/-- Model of `SemanticNode`: the concept embedding and the outgoing edge map
`target → weight` (the cached `activation_level` field is advisory state not
read by any modelled operation and is omitted). -/
structure SemanticNode where
  embedding : List ℚ
  edges : List (String × ℚ)
deriving DecidableEq, Repr

/-- Model of `SemanticNetwork`: the node map `concept → node`. -/
structure SemanticNetwork where
  nodes : List (String × SemanticNode)
deriving DecidableEq, Repr

/-- Total number of directed edges of the network. -/
def totalEdges (net : SemanticNetwork) : Nat :=
  (net.nodes.map (fun p => p.2.edges.length)).sum

/-- One neighbor update of the spreading loop: compute the decayed
activation, skip below threshold, accumulate with `max`, and push the
neighbor onto the frontier if unvisited.  State is
`(activations, visited, queue)`. -/
def spreadStep (decay thr a : ℚ) (hops : Nat)
    (st : List (String × ℚ) × List String × List (String × Nat × ℚ))
    (ew : String × ℚ) :
    List (String × ℚ) × List String × List (String × Nat × ℚ) :=
  let na := a * decay * ew.2
  if na < thr then st
  else
    let acts := match lookupA st.1 ew.1 with
      | some old => insertA st.1 ew.1 (max old na)
      | none => insertA st.1 ew.1 na
    if ew.1 ∈ st.2.1 then (acts, st.2.1, st.2.2)
    else (acts, st.2.1 ++ [ew.1], st.2.2 ++ [(ew.1, hops + 1, na)])

/-- The fuelled BFS loop of `spread_activation`. -/
def spreadLoop (net : SemanticNetwork) (max_hops : Nat) (decay thr : ℚ) :
    Nat → List (String × Nat × ℚ) → List String → List (String × ℚ) →
    List (String × ℚ)
  | 0, _, _, acts => acts
  | _ + 1, [], _, acts => acts
  | fuel + 1, (c, hops, a) :: rest, visited, acts =>
    if max_hops ≤ hops then spreadLoop net max_hops decay thr fuel rest visited acts
    else
      match lookupA net.nodes c with
      | none => spreadLoop net max_hops decay thr fuel rest visited acts
      | some node =>
        let st := node.edges.foldl (spreadStep decay thr a hops) (acts, visited, rest)
        spreadLoop net max_hops decay thr fuel st.2.2 st.2.1 st.1

/-- Initialization of `spread_activation`: each source concept present in the
node map is pushed with hop count 0, given activation 1.0, and marked
visited (the C++ pushes unconditionally, so a duplicated source is pushed
twice but only inserted into the visited set once). -/
def spreadInit (net : SemanticNetwork) (sources : List String) :
    List (String × ℚ) × List String × List (String × Nat × ℚ) :=
  sources.foldl (fun st c =>
    if (lookupA net.nodes c).isSome then
      (insertA st.1 c 1, (if c ∈ st.2.1 then st.2.1 else st.2.1 ++ [c]),
        st.2.2 ++ [(c, 0, (1 : ℚ))])
    else st) ([], [], [])

/-- The descending-activation ordering of the final sort in `spread_activation`. -/
def actGe (a b : String × ℚ) : Prop := b.2 ≤ a.2

instance : DecidableRel actGe := fun a b => inferInstanceAs (Decidable (b.2 ≤ a.2))

instance : IsTotal (String × ℚ) actGe := ⟨fun a b => le_total b.2 a.2⟩

instance : IsTrans (String × ℚ) actGe := ⟨fun _ _ _ h1 h2 => le_trans h2 h1⟩

/-- Model of `SemanticNetwork::spread_activation`. -/
def spread_activation (net : SemanticNetwork) (sources : List String)
    (max_hops : Nat) (decay thr : ℚ) : List (String × ℚ) :=
  let st := spreadInit net sources
  let acts := spreadLoop net max_hops decay thr
    (sources.length + totalEdges net + 1) st.2.2 st.2.1 st.1
  List.insertionSort actGe acts

/-- The two-edge graph of boundary scenario 4: `A→B(1.0), B→C(1.0)`. -/
def c2_net : SemanticNetwork :=
  ⟨[("A", ⟨[], [("B", 1)]⟩), ("B", ⟨[], [("C", 1)]⟩), ("C", ⟨[], []⟩)]⟩

/-- A graph with an edge weight above 1: `A→B(2.0)`. -/
def c7_net : SemanticNetwork :=
  ⟨[("A", ⟨[], [("B", 2)]⟩), ("B", ⟨[], []⟩)]⟩

/-- All edge weights of the network lie in `[0, 1]`. -/
def weightsIn01 (net : SemanticNetwork) : Prop :=
  ∀ p ∈ net.nodes, ∀ e ∈ p.2.edges, 0 ≤ e.2 ∧ e.2 ≤ 1

/-! ### Episodic buffer (`episodic_buffer.hpp` / `episodic_buffer.cpp`) -/

/-- Model of `Episode`. -/
structure Episode where
  query : String
  response : String
  query_embedding : List ℚ
  timestamp_ms : Nat
  metadata : List (String × String)
deriving DecidableEq, Repr

/-- Model of `EpisodicBuffer`: capacity plus the deque (head = oldest). -/
structure EpisodicBuffer where
  max_capacity : Nat
  buffer : List Episode
deriving DecidableEq, Repr

/-- Model of `EpisodicBuffer::add_episode`: `push_back`, then `pop_front`
when the size exceeds the capacity. -/
def add_episode (b : EpisodicBuffer) (e : Episode) : EpisodicBuffer :=
  if b.max_capacity < (b.buffer ++ [e]).length then
    ⟨b.max_capacity, (b.buffer ++ [e]).tail⟩
  else ⟨b.max_capacity, b.buffer ++ [e]⟩

/-- Model of `EpisodicBuffer::size`. -/
def bufSize (b : EpisodicBuffer) : Nat := b.buffer.length

/-- Model of `EpisodicBuffer::get_recent`: the last `count` episodes (all of
them when fewer are stored) in insertion order. -/
def get_recent (b : EpisodicBuffer) (count : Nat) : List Episode :=
  b.buffer.drop (b.buffer.length - count)

/-- Fold a sequence of `add_episode` calls over a buffer. -/
def addAll (b : EpisodicBuffer) (es : List Episode) : EpisodicBuffer :=
  es.foldl add_episode b

/-- Model of the control flow of `cosine_similarity` from `utils.hpp`: it
throws `std::invalid_argument` exactly when the two vectors have different
lengths; the numeric value on equal lengths (a quotient of real square
roots) is abstracted as the parameter `sim`.  The single claim about
`retrieve_similar` depends only on the dimension check. -/
def cosineChk (sim : List ℚ → List ℚ → ℚ) (a b : List ℚ) : Except String ℚ :=
  if a.length ≠ b.length then Except.error "Vectors must have same dimension"
  else Except.ok (sim a b)

/-- The scoring loop of `retrieve_similar`: score each episode in order,
propagating the first dimension-mismatch exception. -/
def scoreEpisodes (f : Episode → Except String (Episode × ℚ)) :
    List Episode → Except String (List (Episode × ℚ))
  | [] => Except.ok []
  | ep :: rest =>
    match f ep with
    | Except.error e => Except.error e
    | Except.ok p =>
      match scoreEpisodes f rest with
      | Except.error e => Except.error e
      | Except.ok ps => Except.ok (p :: ps)

/-- Score one episode: cosine similarity (raising on dimension mismatch)
times the temporal decay, like the loop body of `retrieve_similar`. -/
def scoreOne (sim : List ℚ → List ℚ → ℚ) (decayF : Nat → Nat → ℚ)
    (now : Nat) (q : List ℚ) (ep : Episode) : Except String (Episode × ℚ) :=
  match cosineChk sim q ep.query_embedding with
  | Except.error e => Except.error e
  | Except.ok s => Except.ok (ep, s * decayF ep.timestamp_ms now)

/-- The descending-score ordering of the sort in `retrieve_similar`. -/
def epiGe (a b : Episode × ℚ) : Prop := b.2 ≤ a.2

instance : DecidableRel epiGe := fun a b => inferInstanceAs (Decidable (b.2 ≤ a.2))

instance : IsTotal (Episode × ℚ) epiGe := ⟨fun a b => le_total b.2 a.2⟩

instance : IsTrans (Episode × ℚ) epiGe := ⟨fun _ _ _ h1 h2 => le_trans h2 h1⟩

/-- Model of `EpisodicBuffer::retrieve_similar`.  `sim` abstracts the
numeric cosine value and `decayF ts now` abstracts `exp(-λ·(now - ts))`;
the control flow (dimension check, threshold filter, descending sort,
top-k truncation) follows the source. -/
def retrieve_similar (sim : List ℚ → List ℚ → ℚ) (decayF : Nat → Nat → ℚ)
    (now : Nat) (b : EpisodicBuffer) (q : List ℚ) (top_k : Nat) (thr : ℚ) :
    Except String (List Episode) :=
  match scoreEpisodes (scoreOne sim decayF now q) b.buffer with
  | Except.error e => Except.error e
  | Except.ok scored =>
    Except.ok (((List.insertionSort epiGe
      (scored.filter (fun p => thr ≤ p.2))).take top_k).map (·.1))

/-! ### HNSW vector index (`vector_search/hnsw_index.hpp` / `.cpp`)

The internal `hnswlib` graph structure is abstracted to the set of internal
ids added to it plus the tombstoned ids; the claims under verification
concern only the metadata maps, the configuration fields, and
`next_internal_id_`. -/

/-- Model of `DocumentMetadata` (the JSON metadata is opaque here). -/
structure DocumentMetadata where
  doc_id : String
  content : String
  metadata : String
  internal_id : Nat
deriving DecidableEq, Repr

/-- Model of the `HNSWIndex` state. -/
structure HNSWIndexState where
  dim : Nat
  max_elements : Nat
  hM : Nat
  ef_construction : Nat
  ef_search : Nat
  space_type : String
  documents : List (String × DocumentMetadata)
  internal_id_to_doc_id : List (Nat × String)
  next_internal_id : Nat
  ann_ids : List Nat
  ann_deleted : List Nat
deriving DecidableEq, Repr

/-- Result of `HNSWIndex::add_document`: `inserted`/`duplicate` model the
boolean return, `dimMismatch` the `std::invalid_argument` throw, and
`capacityExceeded` the `std::runtime_error` throw. -/
inductive AddResult where
  | inserted
  | duplicate
  | dimMismatch
  | capacityExceeded
deriving DecidableEq, Repr

/-- Model of `HNSWIndex::add_document`: duplicate check first, then the
dimension check, then the capacity check (`next_internal_id_ >=
max_elements_`), then insertion with a freshly assigned internal id. -/
def add_document (s : HNSWIndexState) (doc_id : String) (embedding : List ℚ)
    (content metadata : String) : AddResult × HNSWIndexState :=
  if (lookupA s.documents doc_id).isSome then (AddResult.duplicate, s)
  else if embedding.length ≠ s.dim then (AddResult.dimMismatch, s)
  else if s.max_elements ≤ s.next_internal_id then (AddResult.capacityExceeded, s)
  else
    let iid := s.next_internal_id
    (AddResult.inserted,
      { s with
        next_internal_id := iid + 1
        ann_ids := s.ann_ids ++ [iid]
        documents := s.documents ++ [(doc_id, ⟨doc_id, content, metadata, iid⟩)]
        internal_id_to_doc_id := s.internal_id_to_doc_id ++ [(iid, doc_id)] })

/-- Model of `HNSWIndex::remove_document`: soft delete.  The internal id is
tombstoned (`markDelete`) and removed from both metadata maps;
`next_internal_id_` is untouched. -/
def remove_document (s : HNSWIndexState) (doc_id : String) :
    Bool × HNSWIndexState :=
  match lookupA s.documents doc_id with
  | none => (false, s)
  | some doc =>
    (true,
      { s with
        ann_deleted := s.ann_deleted ++ [doc.internal_id]
        internal_id_to_doc_id := eraseN s.internal_id_to_doc_id doc.internal_id
        documents := eraseA s.documents doc_id })

/-- Model of `HNSWIndex::clear`: recreate the ANN structure and reset the
metadata maps and `next_internal_id_`; the configuration is kept. -/
def clearIndex (s : HNSWIndexState) : HNSWIndexState :=
  { s with
    documents := []
    internal_id_to_doc_id := []
    next_internal_id := 0
    ann_ids := []
    ann_deleted := [] }

/-- The parsed contents of a `<path>.meta` sidecar file. -/
structure MetaFileData where
  dim : Nat
  max_elements : Nat
  hM : Nat
  ef_construction : Nat
  ef_search : Nat
  space_type : String
  next_internal_id : Nat
  documents : List (String × String × String × Nat)
deriving DecidableEq, Repr

/-- A snapshot file pair presented to `load`: `meta = none` models a sidecar
that cannot be opened or parsed (failure before any state mutation);
`binary_ok = false` models the `loadIndex` call of `hnswlib` throwing (missing or
unreadable binary file).  Field extraction from the parsed JSON is modelled
as atomic — the reading most favourable to the source, which can in fact
also fail between individual field assignments. -/
structure SnapshotFile where
  meta : Option MetaFileData
  binary_ok : Bool
deriving DecidableEq, Repr

/-- Model of `HNSWIndex::load`.  Mirrors the mutation order of the source: the
configuration fields and `next_internal_id_` are overwritten from the
sidecar first, then the ANN structure is recreated, then the binary index
is loaded, and only after that are the document maps cleared and restored.
Every `catch` returns `false` with whatever mutations already happened. -/
def load (s : HNSWIndexState) (f : SnapshotFile) : Bool × HNSWIndexState :=
  match f.meta with
  | none => (false, s)
  | some m =>
    let s1 := { s with
      dim := m.dim
      max_elements := m.max_elements
      hM := m.hM
      ef_construction := m.ef_construction
      ef_search := m.ef_search
      space_type := m.space_type
      next_internal_id := m.next_internal_id }
    if m.space_type = "l2" ∨ m.space_type = "ip" then
      let s2 := { s1 with ann_ids := [], ann_deleted := [] }
      if f.binary_ok then
        (true,
          { s2 with
            documents := m.documents.map (fun d => (d.1, ⟨d.1, d.2.1, d.2.2.1, d.2.2.2⟩))
            internal_id_to_doc_id := m.documents.map (fun d => (d.2.2.2, d.1)) })
      else (false, s2)
    else (false, s1)

/-- Operations for add/remove sequences against the index. -/
inductive IndexOp where
  | add (doc_id : String) (embedding : List ℚ) (content metadata : String)
  | remove (doc_id : String)
deriving DecidableEq, Repr

/-- Apply one operation, discarding the result value. -/
def applyOp (s : HNSWIndexState) (op : IndexOp) : HNSWIndexState :=
  match op with
  | IndexOp.add d e c m => (add_document s d e c m).2
  | IndexOp.remove d => (remove_document s d).2

/-- Run a sequence of operations. -/
def runOps (s : HNSWIndexState) (ops : List IndexOp) : HNSWIndexState :=
  ops.foldl applyOp s

/-- 1 when the operation is an `add_document` call that actually inserts. -/
def opInsertedCount (s : HNSWIndexState) (op : IndexOp) : Nat :=
  match op with
  | IndexOp.add d e c m =>
    if (add_document s d e c m).1 = AddResult.inserted then 1 else 0
  | IndexOp.remove _ => 0

/-- Count the `add_document` calls of the sequence that actually insert. -/
def countSuccessfulAdds : HNSWIndexState → List IndexOp → Nat
  | _, [] => 0
  | s, op :: rest => opInsertedCount s op + countSuccessfulAdds (applyOp s op) rest

/-- A concrete populated index state (dim 4, one stored document). -/
def c6_state : HNSWIndexState :=
  { dim := 4, max_elements := 10, hM := 16, ef_construction := 200
    ef_search := 50, space_type := "l2"
    documents := [("doc1", ⟨"doc1", "hello", "", 0⟩)]
    internal_id_to_doc_id := [(0, "doc1")]
    next_internal_id := 1, ann_ids := [0], ann_deleted := [] }

/-- A snapshot whose sidecar parses (declaring dim 8) but whose binary index
file is missing, so `loadIndex` throws. -/
def c6_file : SnapshotFile :=
  { meta := some
      { dim := 8, max_elements := 20, hM := 16, ef_construction := 200
        ef_search := 50, space_type := "l2", next_internal_id := 5
        documents := [] }
    binary_ok := false }

/-! ### Hallucination detector (`hallucination_detector.hpp` / `.cpp`) -/

/-- Model of `Evidence`. -/
structure Evidence where
  source : String
  confidence : ℚ
  content : String
deriving DecidableEq, Repr

/-- Model of `HallucinationResult` (the copied-through evidence list is
omitted; it is the `evidence` argument unchanged). -/
structure HallucinationResult where
  is_hallucination : Bool
  confidence_score : ℚ
  flags : List String
deriving DecidableEq, Repr

/-- Detector configuration: `min_evidence_count_`,
`min_evidence_confidence_`, and the hedge-phrase set. -/
structure DetectorState where
  min_evidence_count : Nat
  min_evidence_confidence : ℚ
  patterns : List String
deriving DecidableEq, Repr

/-- The apostrophe character, spelled via its code point. -/
def apos : Char := Char.ofNat 39

/-- The five-word hedge phrase containing an apostrophe, built explicitly
around the apostrophe character. -/
def imNotSure : String := "i" ++ String.mk [apos] ++ "m not sure"

/-- The detector as built by the `HallucinationDetector` constructor:
`min_evidence_count_ = 2`, `min_evidence_confidence_ = 0.6`, and the seven
default hedge phrases. -/
def defaultDetector : DetectorState :=
  { min_evidence_count := 2
    min_evidence_confidence := 3 / 5
    patterns := ["i think", "probably", "maybe", "possibly", imNotSure,
                 "i believe", "it seems"] }

/-- Model of `HallucinationDetector::contains_hedging`: case-insensitive
substring search for any stored pattern. -/
def contains_hedging (det : DetectorState) (response : String) : Bool :=
  det.patterns.any (fun p => substrB (toLowerS response) p)

/-- The five factual-indicator phrases of
`contains_unsubstantiated_claims`. -/
def factualIndicators : List String :=
  ["according to", "research shows", "studies indicate",
   "it is known that", "the fact is"]

/-- Model of `HallucinationDetector::contains_unsubstantiated_claims`:
only fires when the (strong) evidence list is empty and the lowercased
response contains a factual indicator. -/
def contains_unsubstantiated_claims (response : String)
    (evidence : List Evidence) : Bool :=
  if evidence = [] then
    factualIndicators.any (fun p => substrB (toLowerS response) p)
  else false

/-- Number of response words of length > 3 that occur among the content
words (each response word counted once, matching the break in the source). -/
def countCommon (rwords cwords : List String) : Nat :=
  (rwords.filter (fun w => decide (3 < w.length) && cwords.contains w)).length

/-- Model of `HallucinationDetector::compute_evidence_support`: 0 on empty
evidence; otherwise overlap-weighted mean confidence, falling back to the
plain mean confidence when no evidence overlaps. -/
def compute_evidence_support (response : String) (evidence : List Evidence) : ℚ :=
  if evidence = [] then 0
  else
    let rwords := tokenizeS (toLowerS response)
    let acc := evidence.foldl (fun (acc : ℚ × ℚ) ev =>
      let cwords := tokenizeS (toLowerS ev.content)
      let common : ℚ := (countCommon rwords cwords : ℚ)
      let overlap : ℚ := if rwords.length = 0 then 0 else common / (rwords.length : ℚ)
      (acc.1 + ev.confidence * overlap, acc.2 + overlap)) (0, 0)
    if acc.2 = 0 then
      (evidence.foldl (fun s ev => s + ev.confidence) 0) / (evidence.length : ℚ)
    else acc.1 / acc.2

/-- Model of `HallucinationDetector::validate`.  The `0.2f` per-flag penalty
and the `0.6f`/`0.5f` defaults are the exact rationals `1/5`, `3/5`, `1/2`. -/
def validate (det : DetectorState) (query response : String)
    (evidence : List Evidence) (threshold : ℚ) : HallucinationResult :=
  let strong := evidence.filter (fun ev => det.min_evidence_confidence ≤ ev.confidence)
  let flags :=
    (if strong.length < det.min_evidence_count then
      ["Insufficient evidence count (" ++ toString strong.length ++ " < " ++
        toString det.min_evidence_count ++ ")"] else []) ++
    (if contains_hedging det response then
      ["Response contains hedging language"] else []) ++
    (if contains_unsubstantiated_claims response strong then
      ["Response contains unsubstantiated claims"] else [])
  let evidence_score := compute_evidence_support response strong
  let raw := evidence_score - (flags.length : ℚ) * (1 / 5)
  let confidence := max 0 (min 1 raw)
  { is_hallucination := confidence < threshold
    confidence_score := confidence
    flags := flags }

/-! ## Theorems -/

set_option maxRecDepth 8000

/-- C2: On the graph `A→B(1.0), B→C(1.0)`, spreading activation from `[A]`
with `max_hops = 2`, `decay = 0.7`, `threshold = 0.1` returns exactly
`[(A, 1), (B, 0.7), (C, 0.49)]` in that order (exact rational values, hence
within 1e-6 of the claimed floats; the three activations are pairwise
distinct, so the descending sort yields this order for every hash-map
iteration order of the C++ source). -/
theorem spread_activation_boundary_example :
    spread_activation c2_net ["A"] 2 (7/10) (1/10) =
      [("A", 1), ("B", 7/10), ("C", 49/100)] := by
  with_unfolding_all decide

/-- C5 (counterexample): calling `set_weights` with weights summing to zero
does not fall back to the equal weights `(1/3, 1/3, 1/3)`; the zero weights
are stored unchanged. -/
theorem set_weights_zero_sum_counterexample :
    set_weights ⟨0, 0, 0⟩ = ⟨0, 0, 0⟩ ∧
    set_weights ⟨0, 0, 0⟩ ≠ ⟨1/3, 1/3, 1/3⟩ := by
  with_unfolding_all decide

/-- C5 (amended): `set_weights` (and the constructor, which performs the
same `normalize`) leaves the given weights unchanged when their sum is not
positive — there is no equal-weights fallback — and with a positive sum it
stores the weights divided by their sum, which then sum to exactly 1. -/
theorem set_weights_normalization (w : FusionWeights) :
    (wsum w ≤ 0 → set_weights w = w) ∧
    (0 < wsum w →
      set_weights w =
        ⟨w.vector_weight / wsum w, w.episodic_weight / wsum w,
          w.semantic_weight / wsum w⟩ ∧
      wsum (set_weights w) = 1) := by
  constructor
  · intro h
    unfold set_weights FusionWeights.normalize
    rw [if_neg (not_lt.mpr h)]
  · intro h
    unfold set_weights FusionWeights.normalize
    rw [if_pos h]
    refine ⟨rfl, ?_⟩
    show _ / _ + _ / _ + _ / _ = 1
    rw [div_add_div_same, div_add_div_same]
    show wsum w / wsum w = 1
    exact div_self (ne_of_gt h)

/-- C5 (witness): the amended statement at the concrete weights
`(0,0,0)` (zero sum, kept unchanged) and `(2,1,1)` (positive sum,
normalized to sum 1). -/
theorem set_weights_normalization_witness :
    set_weights ⟨0, 0, 0⟩ = ⟨0, 0, 0⟩ ∧ wsum (set_weights ⟨2, 1, 1⟩) = 1 :=
  ⟨(set_weights_normalization ⟨0, 0, 0⟩).1 (by norm_num [wsum]),
    ((set_weights_normalization ⟨2, 1, 1⟩).2 (by norm_num [wsum])).2⟩

/-- C9: the duplicate check of `add_document` precedes the dimension and
capacity checks: for an index already containing `doc_id`, `add_document`
returns `false` (`duplicate`) and leaves the state unchanged for every
embedding — including one of the wrong dimension — and regardless of
capacity. -/
theorem add_document_duplicate_before_validation (s : HNSWIndexState)
    (doc_id : String) (embedding : List ℚ) (content metadata : String)
    (h : (lookupA s.documents doc_id).isSome = true) :
    add_document s doc_id embedding content metadata = (AddResult.duplicate, s) := by
  unfold add_document
  rw [if_pos h]

/-- An index at full capacity (`max_elements = 1`, one stored document). -/
def c9_state : HNSWIndexState :=
  { dim := 2, max_elements := 1, hM := 16, ef_construction := 200
    ef_search := 50, space_type := "l2"
    documents := [("a", ⟨"a", "c", "", 0⟩)]
    internal_id_to_doc_id := [(0, "a")]
    next_internal_id := 1, ann_ids := [0], ann_deleted := [] }

/-- C9 (witness): re-adding `"a"` with a wrong-dimension embedding to the
full index returns `duplicate` and changes nothing — no dimension-mismatch
or capacity error. -/
theorem add_document_duplicate_before_validation_witness :
    add_document c9_state "a" [1, 2, 3] "x" "" = (AddResult.duplicate, c9_state) :=
  add_document_duplicate_before_validation c9_state "a" [1, 2, 3] "x" ""
    (by with_unfolding_all decide)

/-- C6 (code divergence at the failing input): loading a snapshot whose
sidecar `.meta` parses (declaring `dim = 8`, `next_internal_id = 5`) but
whose binary index file is unreadable returns `false`, yet leaves the index
neither unchanged nor empty-and-initialized: the configuration and
`next_internal_id_` are overwritten from the sidecar while the old document
map (nonempty, built for `dim = 4`) is still in place. -/
theorem load_failure_leaves_partial_state :
    (load c6_state c6_file).1 = false ∧
    (load c6_state c6_file).2.documents = c6_state.documents ∧
    c6_state.documents ≠ [] ∧
    (load c6_state c6_file).2.dim = 8 ∧
    c6_state.dim = 4 ∧
    (load c6_state c6_file).2.next_internal_id = 5 ∧
    c6_state.next_internal_id = 1 := by
  with_unfolding_all decide

/-! ### Activation bounds (C7) -/

/-- All recorded activations lie in `[0, 1]`. -/
def bndA (l : List (String × ℚ)) : Prop := ∀ p ∈ l, 0 ≤ p.2 ∧ p.2 ≤ 1

/-- All frontier activations lie in `[0, 1]`. -/
def bndQ (l : List (String × Nat × ℚ)) : Prop := ∀ p ∈ l, 0 ≤ p.2.2 ∧ p.2.2 ≤ 1

theorem lookupA_mem {α : Type} {l : List (String × α)} {k : String} {v : α}
    (h : lookupA l k = some v) : (k, v) ∈ l := by
  induction l with
  | nil => simp [lookupA] at h
  | cons p rest ih =>
    by_cases hp : p.1 = k
    · simp only [lookupA, if_pos hp] at h
      obtain rfl : p.2 = v := Option.some_injective _ h
      subst hp
      exact List.mem_cons_self p rest
    · simp only [lookupA, if_neg hp] at h
      exact List.mem_cons_of_mem p (ih h)

theorem lookupA_bnd {l : List (String × ℚ)} {k : String} {v : ℚ}
    (hb : bndA l) (h : lookupA l k = some v) : 0 ≤ v ∧ v ≤ 1 :=
  hb (k, v) (lookupA_mem h)

theorem insertA_bnd {l : List (String × ℚ)} {k : String} {v : ℚ}
    (hb : bndA l) (hv : 0 ≤ v ∧ v ≤ 1) : bndA (insertA l k v) := by
  induction l with
  | nil =>
    intro p hp
    simp only [insertA, List.mem_singleton] at hp
    subst hp
    exact hv
  | cons q rest ih =>
    intro p hp
    by_cases hq : q.1 = k
    · simp only [insertA, if_pos hq] at hp
      rcases List.mem_cons.mp hp with h | h
      · subst h; exact hv
      · exact hb p (List.mem_cons_of_mem q h)
    · simp only [insertA, if_neg hq] at hp
      rcases List.mem_cons.mp hp with h | h
      · rw [h]
        exact hb q (List.mem_cons_self q rest)
      · exact ih (fun x hx => hb x (List.mem_cons_of_mem q hx)) p h

theorem spreadStep_bnd {decay thr a : ℚ} {hops : Nat}
    (hd : 0 ≤ decay ∧ decay ≤ 1) (ha : 0 ≤ a ∧ a ≤ 1)
    {st : List (String × ℚ) × List String × List (String × Nat × ℚ)}
    (hA : bndA st.1) (hQ : bndQ st.2.2)
    {ew : String × ℚ} (hw : 0 ≤ ew.2 ∧ ew.2 ≤ 1) :
    bndA (spreadStep decay thr a hops st ew).1 ∧
    bndQ (spreadStep decay thr a hops st ew).2.2 := by
  have hna0 : 0 ≤ a * decay * ew.2 := mul_nonneg (mul_nonneg ha.1 hd.1) hw.1
  have hna1 : a * decay * ew.2 ≤ 1 :=
    mul_le_one₀ (mul_le_one₀ ha.2 hd.1 hd.2) hw.1 hw.2
  unfold spreadStep
  by_cases hthr : a * decay * ew.2 < thr
  · rw [if_pos hthr]
    exact ⟨hA, hQ⟩
  · rw [if_neg hthr]
    have hacts : bndA (match lookupA st.1 ew.1 with
        | some old => insertA st.1 ew.1 (max old (a * decay * ew.2))
        | none => insertA st.1 ew.1 (a * decay * ew.2)) := by
      cases hlk : lookupA st.1 ew.1 with
      | some old =>
        have hold := lookupA_bnd hA hlk
        exact insertA_bnd hA
          ⟨le_trans hold.1 (le_max_left _ _), max_le hold.2 hna1⟩
      | none => exact insertA_bnd hA ⟨hna0, hna1⟩
    by_cases hvis : ew.1 ∈ st.2.1
    · rw [if_pos hvis]
      exact ⟨hacts, hQ⟩
    · rw [if_neg hvis]
      refine ⟨hacts, fun p hp => ?_⟩
      rcases List.mem_append.mp hp with h | h
      · exact hQ p h
      · rw [List.mem_singleton.mp h]
        exact ⟨hna0, hna1⟩

theorem foldSteps_bnd {decay thr a : ℚ} {hops : Nat}
    (hd : 0 ≤ decay ∧ decay ≤ 1) (ha : 0 ≤ a ∧ a ≤ 1) :
    ∀ (edges : List (String × ℚ))
      (st : List (String × ℚ) × List String × List (String × Nat × ℚ)),
      (∀ e ∈ edges, 0 ≤ e.2 ∧ e.2 ≤ 1) → bndA st.1 → bndQ st.2.2 →
      bndA (edges.foldl (spreadStep decay thr a hops) st).1 ∧
      bndQ (edges.foldl (spreadStep decay thr a hops) st).2.2 := by
  intro edges
  induction edges with
  | nil => intro st _ hA hQ; exact ⟨hA, hQ⟩
  | cons e rest ih =>
    intro st hw hA hQ
    have hstep := @spreadStep_bnd decay thr a hops hd ha st hA hQ e
      (hw e (List.mem_cons_self e rest))
    exact ih _ (fun x hx => hw x (List.mem_cons_of_mem e hx)) hstep.1 hstep.2

theorem spreadLoop_bnd {net : SemanticNetwork} {decay thr : ℚ} {max_hops : Nat}
    (hw : weightsIn01 net) (hd : 0 ≤ decay ∧ decay ≤ 1) :
    ∀ (fuel : Nat) (queue : List (String × Nat × ℚ)) (visited : List String)
      (acts : List (String × ℚ)), bndQ queue → bndA acts →
      bndA (spreadLoop net max_hops decay thr fuel queue visited acts) := by
  intro fuel
  induction fuel with
  | zero => intro queue visited acts _ hA; exact hA
  | succ fuel ih =>
    intro queue visited acts hQ hA
    cases queue with
    | nil => exact hA
    | cons top rest =>
      obtain ⟨c, hops, a⟩ := top
      have hrest : bndQ rest := fun p hp => hQ p (List.mem_cons_of_mem _ hp)
      have ha : 0 ≤ a ∧ a ≤ 1 := hQ (c, hops, a) (List.mem_cons_self _ rest)
      by_cases hh : max_hops ≤ hops
      · simpa [spreadLoop, if_pos hh] using ih rest visited acts hrest hA
      · cases hlk : lookupA net.nodes c with
        | none => simpa [spreadLoop, if_neg hh, hlk] using ih rest visited acts hrest hA
        | some node =>
          have hedges : ∀ e ∈ node.edges, 0 ≤ e.2 ∧ e.2 ≤ 1 :=
            hw (c, node) (lookupA_mem hlk)
          have hst := @foldSteps_bnd decay thr a hops hd ha node.edges
            (acts, visited, rest) hedges hA hrest
          simpa [spreadLoop, if_neg hh, hlk] using ih _ _ _ hst.2 hst.1

theorem spreadInit_bnd (net : SemanticNetwork) (sources : List String) :
    bndA (spreadInit net sources).1 ∧ bndQ (spreadInit net sources).2.2 := by
  suffices h : ∀ (l : List String)
      (st : List (String × ℚ) × List String × List (String × Nat × ℚ)),
      bndA st.1 → bndQ st.2.2 →
      bndA (l.foldl (fun st c =>
        if (lookupA net.nodes c).isSome then
          (insertA st.1 c 1, (if c ∈ st.2.1 then st.2.1 else st.2.1 ++ [c]),
            st.2.2 ++ [(c, 0, (1 : ℚ))])
        else st) st).1 ∧
      bndQ (l.foldl (fun st c =>
        if (lookupA net.nodes c).isSome then
          (insertA st.1 c 1, (if c ∈ st.2.1 then st.2.1 else st.2.1 ++ [c]),
            st.2.2 ++ [(c, 0, (1 : ℚ))])
        else st) st).2.2 by
    exact h sources ([], [], []) (by intro p hp; simp at hp) (by intro p hp; simp at hp)
  intro l
  induction l with
  | nil => intro st hA hQ; exact ⟨hA, hQ⟩
  | cons c rest ih =>
    intro st hA hQ
    by_cases hc : (lookupA net.nodes c).isSome
    · have hA2 : bndA (insertA st.1 c 1) := insertA_bnd hA ⟨zero_le_one, le_refl 1⟩
      have hQ2 : bndQ (st.2.2 ++ [(c, 0, (1 : ℚ))]) := by
        intro p hp
        rcases List.mem_append.mp hp with h | h
        · exact hQ p h
        · rw [List.mem_singleton.mp h]
          exact ⟨zero_le_one, le_refl 1⟩
      simp only [List.foldl_cons, if_pos hc]
      exact ih _ hA2 hQ2
    · simp only [List.foldl_cons, if_neg hc]
      exact ih st hA hQ

/-- C7 (counterexample): with an edge weight above 1 (`A→B(2.0)`) and
`decay = 1 ∈ [0,1]`, a single spread from `[A]` returns an activation
strictly above 1.0 — the claim fails for arbitrary edge weights. -/
theorem spread_activation_above_one_counterexample :
    ∃ p ∈ spread_activation c7_net ["A"] 1 1 (1/10), 1 < p.2 := by
  with_unfolding_all decide

/-- C7 (amended): when every edge weight lies in `[0, 1]` and the decay
factor lies in `[0, 1]`, every activation returned by a single
`spread_activation` call is non-negative and at most the initial source
activation 1.0. -/
theorem spread_activation_bounded (net : SemanticNetwork) (sources : List String)
    (max_hops : Nat) (decay thr : ℚ)
    (hw : weightsIn01 net) (hd0 : 0 ≤ decay) (hd1 : decay ≤ 1) :
    ∀ p ∈ spread_activation net sources max_hops decay thr, 0 ≤ p.2 ∧ p.2 ≤ 1 := by
  intro p hp
  have hinit := spreadInit_bnd net sources
  have hloop := @spreadLoop_bnd net decay thr max_hops hw ⟨hd0, hd1⟩
    (sources.length + totalEdges net + 1)
    (spreadInit net sources).2.2 (spreadInit net sources).2.1
    (spreadInit net sources).1 hinit.2 hinit.1
  exact hloop p ((List.mem_insertionSort actGe).mp hp)

/-- C7 (witness): the amended bound applied on the `A→B(1.0), B→C(1.0)`
graph (all weights in `[0,1]`), decay `0.7`, at the returned pair
`(C, 0.49)`. -/
theorem spread_activation_bounded_witness :
    (("C", (49 : ℚ)/100) ∈ spread_activation c2_net ["A"] 2 (7/10) (1/10)) ∧
    (0 ≤ ((49 : ℚ)/100) ∧ ((49 : ℚ)/100) ≤ 1) :=
  ⟨by with_unfolding_all decide,
    spread_activation_bounded c2_net ["A"] 2 (7/10) (1/10)
      (by unfold weightsIn01; with_unfolding_all decide) (by norm_num) (by norm_num)
      ("C", (49 : ℚ)/100) (by with_unfolding_all decide)⟩

/-! ### Episodic buffer capacity (C4) -/

theorem add_episode_capacity (b : EpisodicBuffer) (e : Episode) :
    (add_episode b e).max_capacity = b.max_capacity := by
  unfold add_episode
  split <;> rfl

theorem add_episode_length_le (b : EpisodicBuffer) (e : Episode)
    (h : b.buffer.length ≤ b.max_capacity) :
    (add_episode b e).buffer.length ≤ b.max_capacity := by
  unfold add_episode
  split
  · simpa [List.length_tail] using h
  · next hfull =>
    simp only [List.length_append, List.length_singleton] at hfull ⊢
    omega

theorem addAll_length_le (C : Nat) :
    ∀ (es : List Episode) (b : EpisodicBuffer),
      b.max_capacity = C → b.buffer.length ≤ C →
      (addAll b es).buffer.length ≤ C := by
  intro es
  induction es with
  | nil => intro b hc hl; exact hl
  | cons e rest ih =>
    intro b hc hl
    have h1 : (add_episode b e).max_capacity = C := by
      rw [add_episode_capacity, hc]
    have h2 : (add_episode b e).buffer.length ≤ C := by
      rw [← hc]
      exact add_episode_length_le b e (hc ▸ hl)
    exact ih (add_episode b e) h1 h2

theorem addAll_buffer_eq (C : Nat) :
    ∀ (es : List Episode) (b : EpisodicBuffer),
      b.max_capacity = C → b.buffer.length ≤ C →
      (addAll b es).buffer =
        (b.buffer ++ es).drop (b.buffer.length + es.length - C) := by
  intro es
  induction es with
  | nil =>
    intro b hc hl
    simp [addAll, Nat.sub_eq_zero_of_le hl]
  | cons e rest ih =>
    intro b hc hl
    have hstep : addAll b (e :: rest) = addAll (add_episode b e) rest := rfl
    by_cases hfull : b.max_capacity < (b.buffer ++ [e]).length
    · have hlen : b.buffer.length = C := by
        simp only [List.length_append, List.length_singleton] at hfull
        omega
      have hadd : add_episode b e = ⟨b.max_capacity, (b.buffer ++ [e]).tail⟩ := by
        unfold add_episode
        rw [if_pos hfull]
      have htail : (b.buffer ++ [e]).tail = (b.buffer ++ [e]).drop 1 := by
        rw [List.drop_one]
      have hlen2 : ((b.buffer ++ [e]).tail).length = C := by
        simp [List.length_tail, hlen]
      have := ih ⟨b.max_capacity, (b.buffer ++ [e]).tail⟩ hc (by simpa using hlen2.le)
      rw [hstep, hadd, this]
      simp only [hlen2]
      have hsplit : b.buffer ++ e :: rest = (b.buffer ++ [e]) ++ rest := by simp
      rw [hsplit, htail, hlen]
      have h1le : 1 ≤ (b.buffer ++ [e]).length := by simp
      rw [← List.drop_append_of_le_length h1le]
      rw [List.drop_drop]
      congr 1
      simp only [List.length_cons]
      omega
    · have hadd : add_episode b e = ⟨b.max_capacity, b.buffer ++ [e]⟩ := by
        unfold add_episode
        rw [if_neg hfull]
      have hlen2 : (b.buffer ++ [e]).length ≤ C := by
        rw [← hc]
        exact not_lt.mp hfull
      have := ih ⟨b.max_capacity, b.buffer ++ [e]⟩ hc hlen2
      rw [hstep, hadd, this]
      have hsplit : b.buffer ++ e :: rest = (b.buffer ++ [e]) ++ rest := by simp
      rw [hsplit]
      simp only [List.length_append, List.length_singleton, List.length_cons,
        List.length_nil]
      congr 1
      omega

/-- C4: starting from an empty buffer of capacity `C ≥ 1`, after `n > C`
insertions the size is exactly `C`, `get_recent C` returns precisely the
last `C` inserted episodes in insertion order, and after every prefix of
the insertion sequence the size never exceeds `C`. -/
theorem episodic_ring_eviction (C : Nat) (es : List Episode)
    (hC : 1 ≤ C) (hn : C < es.length) :
    bufSize (addAll ⟨C, []⟩ es) = C ∧
    get_recent (addAll ⟨C, []⟩ es) C = es.drop (es.length - C) ∧
    (∀ n : Nat, bufSize (addAll ⟨C, []⟩ (es.take n)) ≤ C) := by
  have hbuf : (addAll ⟨C, []⟩ es).buffer = es.drop (es.length - C) := by
    have := addAll_buffer_eq C es ⟨C, []⟩ rfl (by simp)
    simpa using this
  have hlen : (addAll ⟨C, []⟩ es).buffer.length = C := by
    rw [hbuf, List.length_drop]
    exact Nat.sub_sub_self (le_of_lt hn)
  refine ⟨hlen, ?_, ?_⟩
  · unfold get_recent
    rw [hlen, Nat.sub_self, List.drop_zero, hbuf]
  · intro n
    exact addAll_length_le C (es.take n) ⟨C, []⟩ rfl (by simp)

/-- Two concrete episodes. -/
def ep1 : Episode := ⟨"q1", "r1", [1], 10, []⟩

/-- Second concrete episode. -/
def ep2 : Episode := ⟨"q2", "r2", [2], 20, []⟩

/-- C4 (witness): capacity 1, two insertions — the size is 1 and
`get_recent 1` returns exactly the second episode. -/
theorem episodic_ring_eviction_witness :
    bufSize (addAll ⟨1, []⟩ [ep1, ep2]) = 1 ∧
    get_recent (addAll ⟨1, []⟩ [ep1, ep2]) 1 = [ep2] := by
  have h := episodic_ring_eviction 1 [ep1, ep2] (by decide) (by decide)
  exact ⟨h.1, h.2.1⟩

/-! ### Retrieval dimension mismatch (C10) -/

theorem scoreEpisodes_error (sim : List ℚ → List ℚ → ℚ) (decayF : Nat → Nat → ℚ)
    (now : Nat) (q : List ℚ) :
    ∀ l : List Episode, (∃ ep ∈ l, ep.query_embedding.length ≠ q.length) →
      scoreEpisodes (scoreOne sim decayF now q) l =
      Except.error "Vectors must have same dimension" := by
  intro l
  induction l with
  | nil => rintro ⟨ep, hmem, _⟩; simp at hmem
  | cons ep rest ih =>
    rintro ⟨ep0, hmem, hne⟩
    by_cases hd : q.length = ep.query_embedding.length
    · have hrest : ∃ x ∈ rest, x.query_embedding.length ≠ q.length := by
        rcases List.mem_cons.mp hmem with h | h
        · exact absurd (h ▸ hd.symm) hne
        · exact ⟨ep0, h, hne⟩
      have hok : scoreOne sim decayF now q ep =
          Except.ok (ep, sim q ep.query_embedding * decayF ep.timestamp_ms now) := by
        unfold scoreOne cosineChk
        rw [if_neg (by simpa using hd)]
      simp only [scoreEpisodes, hok, ih hrest]
    · have herr : scoreOne sim decayF now q ep =
          Except.error "Vectors must have same dimension" := by
        unfold scoreOne cosineChk
        rw [if_pos (by simpa using hd)]
      simp only [scoreEpisodes, herr]

/-- C10: whenever the buffer contains at least one episode whose stored
embedding length differs from the length of the query embedding,
`retrieve_similar` raises the dimension-mismatch (invalid-argument) error
from `cosine_similarity` instead of skipping the episode or returning a
result list.  The numeric similarity (`sim`) and temporal decay (`decayF`)
values are arbitrary — the error depends only on the dimension check. -/
theorem retrieve_similar_dimension_mismatch
    (sim : List ℚ → List ℚ → ℚ) (decayF : Nat → Nat → ℚ) (now : Nat)
    (b : EpisodicBuffer) (q : List ℚ) (top_k : Nat) (thr : ℚ)
    (h : ∃ ep ∈ b.buffer, ep.query_embedding.length ≠ q.length) :
    retrieve_similar sim decayF now b q top_k thr =
      Except.error "Vectors must have same dimension" := by
  unfold retrieve_similar
  rw [scoreEpisodes_error sim decayF now q b.buffer h]

/-- An episode whose reloaded embedding has dimension 1. -/
def ep_dim1 : Episode := ⟨"q", "r", [0], 0, []⟩

/-- C10 (witness): a buffer holding a dimension-1 episode makes
`retrieve_similar` with a dimension-2 query fail with the
dimension-mismatch error. -/
theorem retrieve_similar_dimension_mismatch_witness :
    retrieve_similar (fun _ _ => 0) (fun _ _ => 1) 0 ⟨5, [ep_dim1]⟩ [1, 2] 3 0 =
      Except.error "Vectors must have same dimension" :=
  retrieve_similar_dimension_mismatch (fun _ _ => 0) (fun _ _ => 1) 0
    ⟨5, [ep_dim1]⟩ [1, 2] 3 0 ⟨ep_dim1, List.mem_singleton_self ep_dim1, by decide⟩

/-! ### Tombstones and capacity (C8) -/

theorem add_document_nid (s : HNSWIndexState) (d : String) (e : List ℚ)
    (c m : String) :
    (add_document s d e c m).2.next_internal_id =
      s.next_internal_id +
        (if (add_document s d e c m).1 = AddResult.inserted then 1 else 0) := by
  unfold add_document
  split
  · simp
  · split
    · simp
    · split
      · simp
      · simp

theorem remove_document_nid (s : HNSWIndexState) (d : String) :
    (remove_document s d).2.next_internal_id = s.next_internal_id := by
  unfold remove_document
  cases lookupA s.documents d <;> simp

theorem applyOp_nid (s : HNSWIndexState) (op : IndexOp) :
    (applyOp s op).next_internal_id = s.next_internal_id + opInsertedCount s op := by
  cases op with
  | add d e c m => exact add_document_nid s d e c m
  | remove d => simpa [opInsertedCount] using remove_document_nid s d

theorem runOps_nid (ops : List IndexOp) :
    ∀ s : HNSWIndexState,
      (runOps s ops).next_internal_id =
        s.next_internal_id + countSuccessfulAdds s ops := by
  induction ops with
  | nil => intro s; simp [runOps, countSuccessfulAdds]
  | cons op rest ih =>
    intro s
    have hstep : runOps s (op :: rest) = runOps (applyOp s op) rest := rfl
    have hcnt : countSuccessfulAdds s (op :: rest) =
        opInsertedCount s op + countSuccessfulAdds (applyOp s op) rest := rfl
    rw [hstep, ih (applyOp s op), applyOp_nid, hcnt]
    omega

theorem applyOp_config (s : HNSWIndexState) (op : IndexOp) :
    (applyOp s op).max_elements = s.max_elements ∧ (applyOp s op).dim = s.dim := by
  cases op with
  | add d e c m =>
    simp only [applyOp]
    unfold add_document
    split
    · exact ⟨rfl, rfl⟩
    · split
      · exact ⟨rfl, rfl⟩
      · split
        · exact ⟨rfl, rfl⟩
        · exact ⟨rfl, rfl⟩
  | remove d =>
    simp only [applyOp]
    unfold remove_document
    cases lookupA s.documents d
    · exact ⟨rfl, rfl⟩
    · exact ⟨rfl, rfl⟩

theorem runOps_config (ops : List IndexOp) :
    ∀ s : HNSWIndexState,
      (runOps s ops).max_elements = s.max_elements ∧ (runOps s ops).dim = s.dim := by
  induction ops with
  | nil => intro s; exact ⟨rfl, rfl⟩
  | cons op rest ih =>
    intro s
    have hstep : runOps s (op :: rest) = runOps (applyOp s op) rest := rfl
    rw [hstep]
    have h1 := ih (applyOp s op)
    have h2 := applyOp_config s op
    exact ⟨h1.1.trans h2.1, h1.2.trans h2.2⟩

theorem add_document_capacity (s : HNSWIndexState) (d : String) (e : List ℚ)
    (c m : String) (h1 : lookupA s.documents d = none) (h2 : e.length = s.dim)
    (h3 : s.max_elements ≤ s.next_internal_id) :
    (add_document s d e c m).1 = AddResult.capacityExceeded := by
  unfold add_document
  rw [if_neg (by simp [h1]), if_neg (by simp [h2]), if_pos h3]

/-- C8: tombstones consume capacity permanently.  From a fresh index
(`next_internal_id = 0`), after any operation sequence containing exactly
`max_elements` successful `add_document` calls — regardless of interleaved
removals — every further `add_document` with a fresh `doc_id` and a
correct-dimension embedding fails with the capacity-exceeded error,
because the capacity check compares the monotonically increasing
`next_internal_id` with `max_elements`; `remove_document` never decrements
`next_internal_id`, while `clear` resets it to 0 and a successful `load`
resets it to the value stored in the snapshot. -/
theorem tombstones_consume_capacity (s0 : HNSWIndexState) (ops : List IndexOp)
    (hinit : s0.next_internal_id = 0)
    (hN : countSuccessfulAdds s0 ops = s0.max_elements) :
    (∀ (doc_id : String) (emb : List ℚ) (content metadata : String),
        lookupA (runOps s0 ops).documents doc_id = none →
        emb.length = s0.dim →
        (add_document (runOps s0 ops) doc_id emb content metadata).1 =
          AddResult.capacityExceeded) ∧
    (∀ (s : HNSWIndexState) (doc_id : String),
        (remove_document s doc_id).2.next_internal_id = s.next_internal_id) ∧
    (∀ s : HNSWIndexState, (clearIndex s).next_internal_id = 0) ∧
    (∀ (s : HNSWIndexState) (f : SnapshotFile) (m : MetaFileData),
        f.meta = some m → (load s f).1 = true →
        (load s f).2.next_internal_id = m.next_internal_id) := by
  refine ⟨?_, remove_document_nid, fun _ => rfl, ?_⟩
  · intro doc_id emb content metadata hfresh hdim
    have hnid : (runOps s0 ops).next_internal_id = s0.max_elements := by
      rw [runOps_nid ops s0, hinit, hN, Nat.zero_add]
    have hcfg := runOps_config ops s0
    exact add_document_capacity _ doc_id emb content metadata hfresh
      (hdim.trans hcfg.2.symm) (by rw [hnid, hcfg.1])
  · intro s f m hm htrue
    simp only [load, hm] at htrue ⊢
    split_ifs at htrue ⊢ <;> simp_all

/-- A fresh index with `dim = 2` and `max_elements = 1`. -/
def c8_state : HNSWIndexState :=
  { dim := 2, max_elements := 1, hM := 16, ef_construction := 200
    ef_search := 50, space_type := "l2", documents := []
    internal_id_to_doc_id := [], next_internal_id := 0
    ann_ids := [], ann_deleted := [] }

/-- One successful add followed by its removal. -/
def c8_ops : List IndexOp :=
  [IndexOp.add "a" [1, 2] "c" "", IndexOp.remove "a"]

/-- C8 (witness): with `max_elements = 1`, after adding `"a"` and removing
it again, adding the fresh `"b"` with a correct-dimension embedding still
fails with the capacity-exceeded error. -/
theorem tombstones_consume_capacity_witness :
    (add_document (runOps c8_state c8_ops) "b" [3, 4] "c" "").1 =
      AddResult.capacityExceeded :=
  (tombstones_consume_capacity c8_state c8_ops rfl
      (by with_unfolding_all decide)).1 "b" [3, 4] "c" ""
    (by with_unfolding_all decide) (by with_unfolding_all decide)

/-! ### Validator on empty evidence (C3) -/

/-- C3: with empty evidence and a response containing neither a hedge
phrase nor a factual-indicator phrase, `validate` at the default threshold
`0.5` yields `confidence_score = 0` and `is_hallucination = true`, with
exactly the single insufficient-evidence flag raised (support is 0 and
`0 − 0.2` clamps to 0, which is below 0.5). -/
theorem validate_empty_evidence (query response : String)
    (hh : ∀ p ∈ defaultDetector.patterns, substrB (toLowerS response) p = false)
    (hf : ∀ p ∈ factualIndicators, substrB (toLowerS response) p = false) :
    (validate defaultDetector query response [] (1/2)).confidence_score = 0 ∧
    (validate defaultDetector query response [] (1/2)).is_hallucination = true ∧
    (validate defaultDetector query response [] (1/2)).flags.length = 1 := by
  have hhedge : contains_hedging defaultDetector response = false := by
    unfold contains_hedging
    rw [List.any_eq_false]
    intro p hp
    simp [hh p hp]
  have hclaims : contains_unsubstantiated_claims response ([] : List Evidence) = false := by
    unfold contains_unsubstantiated_claims
    rw [if_pos rfl, List.any_eq_false]
    intro p hp
    simp [hf p hp]
  have hsup : compute_evidence_support response ([] : List Evidence) = 0 := by
    unfold compute_evidence_support
    rw [if_pos rfl]
  unfold validate
  simp only [List.filter_nil, hhedge, hclaims, hsup, Bool.false_eq_true, if_false,
    List.append_nil]
  norm_num [defaultDetector]

/-- C3 (witness): the theorem applied to the concrete response `"zzz"`,
which contains no hedge phrase and no factual indicator. -/
theorem validate_empty_evidence_witness :
    (validate defaultDetector "q" "zzz" [] (1/2)).confidence_score = 0 ∧
    (validate defaultDetector "q" "zzz" [] (1/2)).is_hallucination = true :=
  ⟨(validate_empty_evidence "q" "zzz" (by with_unfolding_all decide)
      (by with_unfolding_all decide)).1,
    (validate_empty_evidence "q" "zzz" (by with_unfolding_all decide)
      (by with_unfolding_all decide)).2.1⟩

/-! ### Fusion score provenance and ordering (C1) -/

/-- Provenance of one inner-map field: whenever the field projected by
`proj` is set in an entry of the score map, the content of that entry occurs in
the source list `src`. -/
def prov (proj : SourceScores → Option ℚ) (src : List ScoredResult)
    (m : List (String × SourceScores)) : Prop :=
  ∀ q ∈ m, proj q.2 ≠ none → ∃ x ∈ src, x.content = q.1

theorem upsert_prov (proj : SourceScores → Option ℚ) (src : List ScoredResult)
    (m : List (String × SourceScores)) (c : String) (f : SourceScores → SourceScores)
    (hj : (∃ x ∈ src, x.content = c) ∨ (∀ ss, proj (f ss) = proj ss))
    (hd : proj ⟨none, none, none⟩ = none)
    (hm : prov proj src m) : prov proj src (upsertScore m c f) := by
  induction m with
  | nil =>
    intro q hq hne
    simp only [upsertScore, List.mem_singleton] at hq
    subst hq
    rcases hj with h | h
    · simpa using h
    · exact absurd (by rw [show ((c, f ⟨none, none, none⟩) : String × SourceScores).2 =
        f ⟨none, none, none⟩ from rfl, h, hd]) hne
  | cons p rest ih =>
    intro q hq hne
    by_cases hp : p.1 = c
    · simp only [upsertScore, if_pos hp] at hq
      rcases List.mem_cons.mp hq with h | h
      · rcases hj with hL | hR
        · rw [h]
          simpa using hL
        · rw [h] at hne
          have hpne : proj p.2 ≠ none := by
            rw [← hR p.2]
            exact hne
          obtain ⟨x, hx, hxc⟩ := hm p (List.mem_cons_self p rest) hpne
          refine ⟨x, hx, ?_⟩
          rw [h, hxc, hp]
      · exact hm q (List.mem_cons_of_mem p h) hne
    · simp only [upsertScore, if_neg hp] at hq
      rcases List.mem_cons.mp hq with h | h
      · rw [h] at hne ⊢
        exact hm p (List.mem_cons_self p rest) hne
      · exact ih (fun x hx hnx => hm x (List.mem_cons_of_mem p hx) hnx) q h hne

theorem foldPhase_prov (proj : SourceScores → Option ℚ) (src : List ScoredResult)
    (g : ScoredResult → SourceScores → SourceScores)
    (hd : proj ⟨none, none, none⟩ = none) :
    ∀ l : List ScoredResult,
      (∀ r ∈ l, (∃ x ∈ src, x.content = r.content) ∨ (∀ ss, proj (g r ss) = proj ss)) →
      ∀ m, prov proj src m →
        prov proj src (l.foldl (fun m r => upsertScore m r.content (g r)) m) := by
  intro l
  induction l with
  | nil => intro _ m hm; exact hm
  | cons r rest ih =>
    intro hj m hm
    simp only [List.foldl_cons]
    exact ih (fun x hx => hj x (List.mem_cons_of_mem r hx)) _
      (upsert_prov proj src m r.content (g r) (hj r (List.mem_cons_self r rest)) hd hm)

theorem prov_nil (proj : SourceScores → Option ℚ) (src : List ScoredResult) :
    prov proj src [] := by
  intro q hq
  simp at hq

theorem buildScoreMap_provV (vr er sr : List ScoredResult) :
    prov (fun ss => ss.vector) vr (buildScoreMap vr er sr) := by
  show prov (fun ss => ss.vector) vr
    (sr.foldl (fun m r => upsertScore m r.content
      (fun ss => { ss with semantic := some r.score }))
      (er.foldl (fun m r => upsertScore m r.content
        (fun ss => { ss with episodic := some r.score }))
        (vr.foldl (fun m r => upsertScore m r.content
          (fun ss => { ss with vector := some r.score })) [])))
  apply foldPhase_prov (fun ss => ss.vector) vr
    (fun r ss => { ss with semantic := some r.score }) rfl sr
    (fun r _ => Or.inr (fun ss => rfl))
  apply foldPhase_prov (fun ss => ss.vector) vr
    (fun r ss => { ss with episodic := some r.score }) rfl er
    (fun r _ => Or.inr (fun ss => rfl))
  apply foldPhase_prov (fun ss => ss.vector) vr
    (fun r ss => { ss with vector := some r.score }) rfl vr
    (fun r hr => Or.inl ⟨r, hr, rfl⟩)
  exact prov_nil _ _

theorem buildScoreMap_provE (vr er sr : List ScoredResult) :
    prov (fun ss => ss.episodic) er (buildScoreMap vr er sr) := by
  show prov (fun ss => ss.episodic) er
    (sr.foldl (fun m r => upsertScore m r.content
      (fun ss => { ss with semantic := some r.score }))
      (er.foldl (fun m r => upsertScore m r.content
        (fun ss => { ss with episodic := some r.score }))
        (vr.foldl (fun m r => upsertScore m r.content
          (fun ss => { ss with vector := some r.score })) [])))
  apply foldPhase_prov (fun ss => ss.episodic) er
    (fun r ss => { ss with semantic := some r.score }) rfl sr
    (fun r _ => Or.inr (fun ss => rfl))
  apply foldPhase_prov (fun ss => ss.episodic) er
    (fun r ss => { ss with episodic := some r.score }) rfl er
    (fun r hr => Or.inl ⟨r, hr, rfl⟩)
  apply foldPhase_prov (fun ss => ss.episodic) er
    (fun r ss => { ss with vector := some r.score }) rfl vr
    (fun r _ => Or.inr (fun ss => rfl))
  exact prov_nil _ _

theorem buildScoreMap_provS (vr er sr : List ScoredResult) :
    prov (fun ss => ss.semantic) sr (buildScoreMap vr er sr) := by
  show prov (fun ss => ss.semantic) sr
    (sr.foldl (fun m r => upsertScore m r.content
      (fun ss => { ss with semantic := some r.score }))
      (er.foldl (fun m r => upsertScore m r.content
        (fun ss => { ss with episodic := some r.score }))
        (vr.foldl (fun m r => upsertScore m r.content
          (fun ss => { ss with vector := some r.score })) [])))
  apply foldPhase_prov (fun ss => ss.semantic) sr
    (fun r ss => { ss with semantic := some r.score }) rfl sr
    (fun r hr => Or.inl ⟨r, hr, rfl⟩)
  apply foldPhase_prov (fun ss => ss.semantic) sr
    (fun r ss => { ss with episodic := some r.score }) rfl er
    (fun r _ => Or.inr (fun ss => rfl))
  apply foldPhase_prov (fun ss => ss.semantic) sr
    (fun r ss => { ss with vector := some r.score }) rfl vr
    (fun r _ => Or.inr (fun ss => rfl))
  exact prov_nil _ _

/-- C1: every result emitted by `fuse` has score exactly
`w_v·v + w_e·e + w_s·s` for the per-source scores `v`, `e`, `s` recorded in
its metadata (exact rational arithmetic, hence within 1e-6), a source in
which the content does not appear contributes zero, the output is sorted
non-increasingly by fused score, and its length is at most `top_k`. -/
theorem fuse_weighted_sorted_topk (w : FusionWeights)
    (vr er sr : List ScoredResult) (top_k : Nat) :
    (∀ r ∈ fuse w vr er sr top_k,
      r.score = w.vector_weight * r.vector_score +
        w.episodic_weight * r.episodic_score +
        w.semantic_weight * r.semantic_score ∧
      ((∀ x ∈ vr, x.content ≠ r.content) → r.vector_score = 0) ∧
      ((∀ x ∈ er, x.content ≠ r.content) → r.episodic_score = 0) ∧
      ((∀ x ∈ sr, x.content ≠ r.content) → r.semantic_score = 0)) ∧
    List.Sorted fusedGe (fuse w vr er sr top_k) ∧
    (fuse w vr er sr top_k).length ≤ top_k := by
  have hfuse : fuse w vr er sr top_k =
      (List.insertionSort fusedGe ((buildScoreMap vr er sr).map
        (fun p => ScoredResult.mk p.1
          (compute_fused_score w (p.2.vector.getD 0) (p.2.episodic.getD 0)
            (p.2.semantic.getD 0))
          "fused" (p.2.vector.getD 0) (p.2.episodic.getD 0)
          (p.2.semantic.getD 0)))).take top_k := rfl
  refine ⟨?_, ?_, ?_⟩
  · intro r hr
    rw [hfuse] at hr
    have h1 := List.take_subset _ _ hr
    have h2 := (List.mem_insertionSort fusedGe).mp h1
    obtain ⟨p, hp, hr2⟩ := List.mem_map.mp h2
    subst hr2
    refine ⟨rfl, ?_, ?_, ?_⟩
    · intro habs
      show p.2.vector.getD 0 = 0
      cases hv : p.2.vector with
      | none => rfl
      | some val =>
        exfalso
        obtain ⟨x, hx, hc⟩ := buildScoreMap_provV vr er sr p hp
          (show p.2.vector ≠ none by rw [hv]; simp)
        exact habs x hx hc
    · intro habs
      show p.2.episodic.getD 0 = 0
      cases hv : p.2.episodic with
      | none => rfl
      | some val =>
        exfalso
        obtain ⟨x, hx, hc⟩ := buildScoreMap_provE vr er sr p hp
          (show p.2.episodic ≠ none by rw [hv]; simp)
        exact habs x hx hc
    · intro habs
      show p.2.semantic.getD 0 = 0
      cases hv : p.2.semantic with
      | none => rfl
      | some val =>
        exfalso
        obtain ⟨x, hx, hc⟩ := buildScoreMap_provS vr er sr p hp
          (show p.2.semantic ≠ none by rw [hv]; simp)
        exact habs x hx hc
  · rw [hfuse]
    exact (List.sorted_insertionSort fusedGe _).sublist (List.take_sublist _ _)
  · rw [hfuse]
    exact List.length_take_le _ _

/-- The fusion-dedup example weights `(0.6, 0.2, 0.2)` from the spec. -/
def w0 : FusionWeights := ⟨3/5, 1/5, 1/5⟩

/-- The fused result of the fusion-dedup example in the spec:
`0.6·0.9 + 0.2·0.8 = 0.70`. -/
def res0 : ScoredResult := ⟨"x", 7/10, "fused", 9/10, 4/5, 0⟩

/-- C1 (witness): the weighted-sum property applied to the fused result of
inputs vector `[("x", 0.9)]`, episodic `[("x", 0.8)]`, semantic `[]`. -/
theorem fuse_weighted_sorted_topk_witness :
    res0.score = w0.vector_weight * res0.vector_score +
      w0.episodic_weight * res0.episodic_score +
      w0.semantic_weight * res0.semantic_score ∧
    res0.semantic_score = 0 := by
  have h := (fuse_weighted_sorted_topk w0 [mkScored "x" (9/10) "vector"]
    [mkScored "x" (4/5) "episodic"] [] 10).1 res0 (by with_unfolding_all decide)
  exact ⟨h.1, h.2.2.2 (fun x hx => absurd hx (List.not_mem_nil x))⟩

end BrainAI
